import Mathlib

/-!
Verification of the CSV/JSON converter core (`src/components/Converter.tsx`).

The embedding models the four routines of the component at the level of
character lists: the CSV parser `parseCSV` (source lines 18-39), the JSON
validator `parseJSON` (lines 41-53), the CSV serializer branch of
`convertData` (lines 67-83), and the dispatcher `convertData` itself
(lines 55-93).  JavaScript strings are modelled as Lean `String`
(`List Char` underneath); the host builtins `JSON.parse` and
`JSON.stringify` are modelled explicitly where noted.
-/

namespace Converter

/-! ## JavaScript string primitives

`String.prototype.trim`, `split(/\r\n|\n/)`, `split(',')` and
`Array.prototype.join` modelled on `List Char`. -/

/-- Whitespace characters removed by `String.prototype.trim` (the common
ASCII ones; exotic Unicode space characters are not modelled). -/
def isJsWS (c : Char) : Bool :=
  c = ' ' || c = '\t' || c = '\n' || c = '\r' || c = '\x0b' || c = '\x0c'

/-- `cs.trim()`: drop leading and trailing whitespace. -/
def trimList (cs : List Char) : List Char :=
  ((cs.dropWhile isJsWS).reverse.dropWhile isJsWS).reverse

/-- `s.trim()` on strings. -/
def jsTrim (s : String) : String := ⟨trimList s.data⟩

/-- Prepend a character to the first chunk of a split result. -/
def consHead (c : Char) : List (List Char) → List (List Char)
  | [] => [[c]]
  | l :: ls => (c :: l) :: ls

/-- `csv.split(/\r\n|\n/)` (source line 19): split on `\n`, treating a
`\r` immediately followed by `\n` as a single separator. -/
def splitLinesCh : List Char → List (List Char)
  | [] => [[]]
  | '\r' :: '\n' :: rest => [] :: splitLinesCh rest
  | '\n' :: rest => [] :: splitLinesCh rest
  | c :: rest => consHead c (splitLinesCh rest)

/-- `line.split(',')` (source lines 24 and 30). -/
def splitCommaCh : List Char → List (List Char)
  | [] => [[]]
  | c :: rest =>
    if c = ',' then [] :: splitCommaCh rest
    else consHead c (splitCommaCh rest)

/-- `Array.prototype.join(sep)` on character lists (source lines 70, 80, 82). -/
def joinWith (sep : List Char) : List (List Char) → List Char
  | [] => []
  | [p] => p
  | p :: ps => p ++ sep ++ joinWith sep ps

/-! ## JSON values

The result type of the host builtin `JSON.parse`: null, booleans, numbers,
strings, arrays and objects.  Numbers are modelled as integers (the claims
only exercise integral numbers; `String(n)` agrees with `toString` there). -/

inductive JValue : Type where
  | jnull : JValue
  | jbool : Bool → JValue
  | jnum : Int → JValue
  | jstr : String → JValue
  | jarr : List JValue → JValue
  | jobj : List (String × JValue) → JValue

/-- `value === null` (source lines 49 and 75). -/
def isNull : JValue → Bool
  | JValue.jnull => true
  | _ => false

/-- `String(value)` for the values above, as JavaScript coerces them:
`String(null) = "null"`, booleans print as `true`/`false`, arrays join
their elements with `,` (null elements printing as the empty string), and
plain objects print as `[object Object]`. -/
def jsString : JValue → String
  | JValue.jnull => "null"
  | JValue.jbool b => cond b "true" "false"
  | JValue.jnum n => toString n
  | JValue.jstr s => s
  | JValue.jobj _ => "[object Object]"
  | JValue.jarr xs =>
    String.intercalate "," (xs.attach.map fun x =>
      if isNull x.1 then "" else jsString x.1)
decreasing_by
  have h := List.sizeOf_lt_of_mem x.2
  simp only [JValue.jarr.sizeOf_spec]
  omega

/-! ## Key enumeration and property lookup

Models `Object.keys(obj)` and `obj[header]` as used on the elements of the
array returned by `parseJSON` (source lines 68 and 73). -/

/-- Insertion-ordered de-duplication: `Array.from(new Set(list))`
(source line 68).  Keeps the first occurrence of each element. -/
def dedupFOAux : List String → List String → List String
  | acc, [] => acc
  | acc, x :: xs => dedupFOAux (if x ∈ acc then acc else acc ++ [x]) xs

/-- `Array.from(new Set(l))`. -/
def dedupFO (l : List String) : List String := dedupFOAux [] l

/-- `Object.keys(value)`: field names of an object in insertion order
(a JavaScript object holds each key once), index strings for an array or
a string, and `[]` for the primitives.  `Object.keys(null)` would throw in
JavaScript, but `parseJSON` never lets a null reach this point; it is
modelled as `[]`. -/
def jsKeys : JValue → List String
  | JValue.jobj fs => dedupFO (fs.map Prod.fst)
  | JValue.jarr xs => (List.range xs.length).map toString
  | JValue.jstr s => (List.range s.length).map toString
  | _ => []

/-- Lookup of a key in an object's field list (a JavaScript object holds
each key at most once, so the first match is the match). -/
def lookupFirst : List (String × JValue) → String → Option JValue
  | [], _ => none
  | kv :: rest, k => if kv.1 = k then some kv.2 else lookupFirst rest k

/-- `value[key]`: property access on a parsed JSON value, `none` standing
for JavaScript `undefined`.  Arrays expose their elements under index
strings and their `length`; primitives have no modelled properties. -/
def jsGet : JValue → String → Option JValue
  | JValue.jobj fs, k => lookupFirst fs k
  | JValue.jarr xs, k =>
    if k = "length" then some (JValue.jnum xs.length)
    else lookupFirst (((List.range xs.length).map toString).zip xs) k
  | _, _ => none

/-! ## CSV serializer (source lines 67-83) -/

/-- `stringValue.includes(',') || stringValue.includes('"') ||
stringValue.includes('\n')` (source line 77); for a single-character
needle, `includes` is character membership. -/
def hasSpecialChar (s : String) : Bool :=
  decide (',' ∈ s.data) || decide ('"' ∈ s.data) || decide ('\n' ∈ s.data)

/-- `stringValue.replace(/"/g, '""')` (source line 78). -/
def escapeQuotesCh : List Char → List Char
  | [] => []
  | c :: rest =>
    if c = '"' then '"' :: '"' :: escapeQuotesCh rest
    else c :: escapeQuotesCh rest

/-- The per-field serializer (source lines 72-79): `undefined`/`null`
become the empty string; otherwise the value is stringified and, if the
string contains a comma, double quote or newline, it is wrapped in double
quotes with every internal double quote doubled. -/
def serializeValue : Option JValue → String
  | none => ""
  | some v =>
    if isNull v then ""
    else
      let stringValue := jsString v
      if hasSpecialChar stringValue then
        ⟨'"' :: (escapeQuotesCh stringValue.data ++ ['"'])⟩
      else stringValue

/-- The unified header list (source line 68): union of all items' keys,
first-occurrence order. -/
def csvHeaders (items : List JValue) : List String :=
  dedupFO (items.flatMap jsKeys)

/-- One field of one row (source lines 72-79). -/
def csvField (item : JValue) (h : String) : String :=
  serializeValue (jsGet item h)

/-- One data row (source lines 71-80): fields in header order joined by `,`. -/
def csvRowCh (headers : List String) (item : JValue) : List Char :=
  joinWith [','] (headers.map fun h => (csvField item h).data)

/-- The serializer branch of `convertData` (source lines 68-82): header row
followed by one row per item, joined by `\n`. -/
def serializeCSV (items : List JValue) : String :=
  ⟨joinWith ['\n']
    (joinWith [','] ((csvHeaders items).map String.data)
      :: items.map (csvRowCh (csvHeaders items)))⟩

/-! ## CSV parser (source lines 18-39) -/

/-- The row-width error text (source line 32). -/
def rowCountError (rowNo actual expected : Nat) : String :=
  "Row " ++ toString rowNo ++ " has " ++ toString actual ++
    " values but should have " ++ toString expected ++ " (matching headers)"

/-- `values[i] || ''` (source line 35): a falsy (empty) string value is
replaced by the empty string. -/
def orEmpty (v : List Char) : List Char := if v = [] then [] else v

/-- `obj[header] = value` on a JavaScript object modelled as an assoc
list: overwrite in place if the key exists, else append. -/
def objInsert (obj : List (String × String)) (k v : String) :
    List (String × String) :=
  if k ∈ obj.map Prod.fst then
    obj.map fun p => if p.1 = k then (k, v) else p
  else obj ++ [(k, v)]

/-- `headers.reduce((obj, header, i) => { obj[header] = values[i] || '';
return obj }, {})` (source lines 34-37). -/
def buildRecord (headers values : List (List Char)) : List (String × String) :=
  (headers.zip values).foldl
    (fun obj kv => objInsert obj ⟨kv.1⟩ ⟨orEmpty kv.2⟩) []

/-- `line.split(',').map(v => v.trim())` (source lines 24 and 30), the
cell list of one line, used both for the header row and the data rows. -/
def rowCells (line : List Char) : List (List Char) :=
  (splitCommaCh line).map trimList

/-- `lines.slice(1).map((line, index) => ...)` (source lines 29-38): each
data line is split on commas and trimmed; a width mismatch aborts with
`rowCountError (index + 2)`. -/
def parseRows (headers : List (List Char)) :
    Nat → List (List Char) → Except String (List (List (String × String)))
  | _, [] => Except.ok []
  | idx, line :: rest =>
    let values := rowCells line
    if values.length ≠ headers.length then
      Except.error (rowCountError (idx + 2) values.length headers.length)
    else
      match parseRows headers (idx + 1) rest with
      | Except.error e => Except.error e
      | Except.ok recs => Except.ok (buildRecord headers values :: recs)

/-- `csv.trim().split(/\r\n|\n/)` (source line 19). -/
def csvLines (csv : String) : List (List Char) :=
  splitLinesCh (trimList csv.data)

/-- `parseCSV` (source lines 18-39). -/
def parseCSV (csv : String) : Except String (List (List (String × String))) :=
  match csvLines csv with
  | [] => Except.error "CSV must contain at least a header row and one data row"
  | [_] => Except.error "CSV must contain at least a header row and one data row"
  | headerLine :: dataLines =>
    let headers := rowCells headerLine
    if headers.any (fun h => h.isEmpty) then
      Except.error "CSV headers cannot be empty"
    else parseRows headers 0 dataLines

/-! ## JSON validator (source lines 41-53) -/

/-- `typeof item === 'object'`: true for objects, arrays and `null`. -/
def typeofObject : JValue → Bool
  | JValue.jnull => true
  | JValue.jarr _ => true
  | JValue.jobj _ => true
  | _ => false

/-- The validation part of `parseJSON` (source lines 43-52), applied to
the value produced by the `JSON.parse` builtin. -/
def parseJSONVal (data : JValue) : Except String (List JValue) :=
  match data with
  | JValue.jarr items =>
    if items.length = 0 then Except.error "JSON array cannot be empty"
    else if items.all (fun item => typeofObject item && !isNull item) then
      Except.ok items
    else Except.error "All items in the array must be objects"
  | _ => Except.error "Input must be an array of objects"

/-- `parseJSON` (source lines 41-53): `JSON.parse` is a host builtin, so
its outcome on the input text is passed in explicitly; a syntax error
propagates, a parsed value is validated. -/
def parseJSON (parsed : Except String JValue) : Except String (List JValue) :=
  match parsed with
  | Except.error e => Except.error e
  | Except.ok v => parseJSONVal v

/-! ## Converter dispatcher (source lines 55-93) -/

/-- The error record of the component (source lines 5-8). -/
structure ConversionError where
  message : String
  details : Option String
deriving DecidableEq

/-- The conversion direction (source line 14). -/
inductive Mode : Type where
  | csv2json : Mode
  | json2csv : Mode
deriving DecidableEq

/-- The component state touched by `convertData`: `input`, `output`,
`error` and `mode` (source lines 11-14). -/
structure ConverterState where
  input : String
  output : String
  error : Option ConversionError
  mode : Mode
deriving DecidableEq

/-- Escaping of one character inside a JSON string literal, as the
`JSON.stringify` builtin performs it. -/
def jsonEscapeChar (c : Char) : List Char :=
  if c = '"' then ['\\', '"']
  else if c = '\\' then ['\\', '\\']
  else if c = '\n' then ['\\', 'n']
  else if c = '\r' then ['\\', 'r']
  else if c = '\t' then ['\\', 't']
  else [c]

/-- A JSON string literal, as the `JSON.stringify` builtin emits it. -/
def jsonQuote (s : String) : String :=
  ⟨'"' :: (s.data.flatMap jsonEscapeChar ++ ['"'])⟩

/-- Models the builtin call `JSON.stringify(result, null, 2)` (source
line 65) on the records `parseCSV` produces: a pretty-printed array of
flat string-valued objects with two-space indentation. -/
def jsonStringifyRecords : List (List (String × String)) → String
  | [] => "[]"
  | recs =>
    "[\n" ++
      String.intercalate ",\n" (recs.map fun r =>
        if r.isEmpty then "  \x7b\x7d"
        else
          "  \x7b\n" ++
            String.intercalate ",\n" (r.map fun kv =>
              "    " ++ jsonQuote kv.1 ++ ": " ++ jsonQuote kv.2) ++
            "\n  \x7d") ++
      "\n]"

/-- `convertData` (source lines 55-93) as a state transformer.  The
outcome of the `JSON.parse` builtin on the current input is passed as
`parsed` (it is consulted only in `json2csv` mode).  The blank-input
branch (lines 57-60) sets the error and returns without touching the
output; a parse failure sets the wrapped error and clears the output
(lines 85-92); success stores the converted text with the error cleared. -/
def convertData (st : ConverterState) (parsed : Except String JValue) :
    ConverterState :=
  if jsTrim st.input = "" then
    ⟨st.input, st.output, some ⟨"Please enter some data to convert", none⟩, st.mode⟩
  else
    match st.mode with
    | Mode.csv2json =>
      match parseCSV st.input with
      | Except.ok result =>
        ⟨st.input, jsonStringifyRecords result, none, st.mode⟩
      | Except.error msg =>
        ⟨st.input, "", some ⟨"Conversion failed", some msg⟩, st.mode⟩
    | Mode.json2csv =>
      match parseJSON parsed with
      | Except.ok items =>
        ⟨st.input, serializeCSV items, none, st.mode⟩
      | Except.error msg =>
        ⟨st.input, "", some ⟨"Conversion failed", some msg⟩, st.mode⟩

/-! ## Spec-side definition used for the refinement claim C7 -/

/-- The CSV escaping rule exactly as §4.3 of the spec words it, applied
to an already-stringified value: "if the stringified value contains `,`,
`"`, or a newline character, wrap the value in double quotes and double
every internal double quote". -/
def csvEscapeSpec (s : String) : String :=
  if decide (',' ∈ s.data) || decide ('"' ∈ s.data) || decide ('\n' ∈ s.data) then
    ⟨'"' :: (s.data.flatMap (fun c => if c = '"' then ['"', '"'] else [c]) ++ ['"'])⟩
  else s

/-- JavaScript scalars (string, number, boolean): the values whose
`typeof` is not `'object'`. -/
def isScalar : JValue → Bool
  | JValue.jbool _ => true
  | JValue.jnum _ => true
  | JValue.jstr _ => true
  | _ => false

/-- A character sequence that survives the CSV parser's trimming and
splitting untouched: non-empty, trim-invariant, and free of commas and
newlines.  Used to state the round-trip claim C1. -/
def plainCell (cs : List Char) : Prop :=
  cs ≠ [] ∧ trimList cs = cs ∧ ',' ∉ cs ∧ '\n' ∉ cs

/-- A record value whose serialized field passes through the round trip
verbatim: non-null, and its stringification is a `plainCell` that also
contains no double quote (so the serializer emits it unquoted). -/
def plainValue (v : JValue) : Prop :=
  isNull v = false ∧ plainCell (jsString v).data ∧ '"' ∉ (jsString v).data

/-- The serialized header line of a record set whose unified headers are
`ks` (abbreviation used in the round-trip proof). -/
def headerJoin (ks : List String) : List Char :=
  joinWith [','] (ks.map String.data)

/-- The serialized data line of one record all of whose fields are plain
(abbreviation used in the round-trip proof). -/
def rowJoin (r : List (String × JValue)) : List Char :=
  joinWith [','] (r.map fun kv => (jsString kv.2).data)

/-! ## Helper lemmas -/

theorem dedupFOAux_append_filter (l : List String) : ∀ acc : List String,
    dedupFOAux acc l = acc ++ (dedupFO l).filter (fun y => decide (y ∉ acc)) := by
  induction l with
  | nil => intro acc; simp [dedupFO, dedupFOAux]
  | cons x xs ih =>
    intro acc
    have hfo : dedupFO (x :: xs) =
        [x] ++ (dedupFO xs).filter (fun y => decide (y ∉ ([x] : List String))) := by
      show dedupFOAux [] (x :: xs) = _
      rw [dedupFOAux, if_neg (List.not_mem_nil x)]
      exact ih [x]
    rw [dedupFOAux, hfo]
    by_cases hx : x ∈ acc
    · rw [if_pos hx, ih acc]
      congr 1
      rw [List.filter_append, List.filter_filter]
      have h1 : List.filter (fun y => decide (y ∉ acc)) [x] = [] := by
        simp [hx]
      rw [h1, List.nil_append]
      apply List.filter_congr
      intro y _
      by_cases hyx : y = x
      · subst hyx; simp [hx]
      · simp [hyx]
    · rw [if_neg hx, ih (acc ++ [x])]
      have h1 : List.filter (fun y => decide (y ∉ acc)) [x] = [x] := by
        simp [hx]
      rw [List.filter_append, h1, List.filter_filter, List.append_assoc]
      congr 2
      apply List.filter_congr
      intro y _
      by_cases hyx : y = x
      · subst hyx; simp
      · simp [hyx, List.mem_append]

theorem dedupFO_cons (x : String) (xs : List String) :
    dedupFO (x :: xs) =
      x :: (dedupFO xs).filter (fun y => decide (y ≠ x)) := by
  show dedupFOAux [] (x :: xs) = _
  rw [dedupFOAux, if_neg (List.not_mem_nil x), dedupFOAux_append_filter]
  simp

theorem dedupFOAux_append (l₁ l₂ : List String) : ∀ acc : List String,
    dedupFOAux acc (l₁ ++ l₂) = dedupFOAux (dedupFOAux acc l₁) l₂ := by
  induction l₁ with
  | nil => intro acc; rfl
  | cons x xs ih => intro acc; rw [List.cons_append, dedupFOAux, dedupFOAux, ih]

theorem dedupFO_append (l₁ l₂ : List String) :
    dedupFO (l₁ ++ l₂) =
      dedupFO l₁ ++ (dedupFO l₂).filter (fun y => decide (y ∉ dedupFO l₁)) := by
  show dedupFOAux [] (l₁ ++ l₂) = _
  rw [dedupFOAux_append, dedupFOAux_append_filter]
  rfl

theorem mem_dedupFO (y : String) (l : List String) : y ∈ dedupFO l ↔ y ∈ l := by
  induction l with
  | nil => simp [dedupFO, dedupFOAux]
  | cons x xs ih =>
    rw [dedupFO_cons]
    by_cases hyx : y = x
    · subst hyx; simp
    · simp [hyx, List.mem_filter, ih]

theorem dedupFO_nodup (l : List String) : (dedupFO l).Nodup := by
  induction l with
  | nil => simp [dedupFO, dedupFOAux]
  | cons x xs ih =>
    rw [dedupFO_cons]
    refine List.Nodup.cons ?_ (ih.filter _)
    intro hx
    rw [List.mem_filter] at hx
    simpa using hx.2

theorem dedupFO_eq_self (l : List String) (h : l.Nodup) : dedupFO l = l := by
  induction l with
  | nil => rfl
  | cons x xs ih =>
    rw [dedupFO_cons, ih h.of_cons]
    have : List.filter (fun y => decide (y ≠ x)) xs = xs := by
      apply List.filter_eq_self.mpr
      intro y hy
      simp only [decide_eq_true_eq]
      intro hyx
      subst hyx
      exact (List.nodup_cons.mp h).1 hy
    rw [this]

theorem dedupFO_idem (l : List String) : dedupFO (dedupFO l) = dedupFO l :=
  dedupFO_eq_self _ (dedupFO_nodup l)

theorem foldl_objInsert_keys (kvs : List (List Char × List Char)) :
    ∀ obj : List (String × String),
      ((kvs.foldl (fun obj kv => objInsert obj ⟨kv.1⟩ ⟨orEmpty kv.2⟩) obj).map
          Prod.fst) =
        dedupFOAux (obj.map Prod.fst) (kvs.map fun kv => String.mk kv.1) := by
  induction kvs with
  | nil => intro obj; rfl
  | cons kv rest ih =>
    intro obj
    rw [List.foldl_cons, List.map_cons, dedupFOAux, ih]
    congr 1
    unfold objInsert
    by_cases hk : String.mk kv.1 ∈ obj.map Prod.fst
    · rw [if_pos hk, if_pos hk, List.map_map]
      apply List.map_congr_left
      intro p _
      by_cases hp : p.1 = String.mk kv.1
      · simp [hp]
      · simp [hp]
    · rw [if_neg hk, if_neg hk, List.map_append]
      rfl

theorem buildRecord_keys (headers values : List (List Char))
    (h : values.length = headers.length) :
    (buildRecord headers values).map Prod.fst =
      dedupFO (headers.map String.mk) := by
  unfold buildRecord dedupFO
  rw [foldl_objInsert_keys]
  have hfst : (headers.zip values).map Prod.fst = headers :=
    List.map_fst_zip headers values (le_of_eq h.symm)
  have : (headers.zip values).map (fun kv => String.mk kv.1) =
      headers.map String.mk := by
    rw [show (fun kv : List Char × List Char => String.mk kv.1) =
        (String.mk ∘ Prod.fst) from rfl, ← List.map_map, hfst]
  rw [this]
  rfl

theorem parseRows_ok (headers : List (List Char)) :
    ∀ (ls : List (List Char)) (idx : Nat),
      (∀ line ∈ ls, (rowCells line).length = headers.length) →
      parseRows headers idx ls =
        Except.ok (ls.map fun line => buildRecord headers (rowCells line)) := by
  intro ls
  induction ls with
  | nil => intro idx _; rfl
  | cons line rest ih =>
    intro idx h
    have h1 := h line (List.mem_cons_self line rest)
    rw [parseRows]
    simp only [if_neg (by rw [h1]; exact fun hc => hc rfl : ¬(rowCells line).length ≠ headers.length)]
    rw [ih (idx + 1) (fun l hl => h l (List.mem_cons_of_mem line hl))]
    rfl

theorem parseRows_first_bad (headers : List (List Char)) :
    ∀ (pre : List (List Char)) (bad : List Char) (rest : List (List Char)) (idx : Nat),
      (∀ line ∈ pre, (rowCells line).length = headers.length) →
      (rowCells bad).length ≠ headers.length →
      parseRows headers idx (pre ++ bad :: rest) =
        Except.error
          (rowCountError (idx + pre.length + 2) (rowCells bad).length headers.length) := by
  intro pre
  induction pre with
  | nil =>
    intro bad rest idx _ hbad
    rw [List.nil_append, parseRows]
    simp only [if_pos hbad, List.length_nil]
  | cons p pre' ih =>
    intro bad rest idx hpre hbad
    have hp := hpre p (List.mem_cons_self p pre')
    rw [List.cons_append, parseRows]
    simp only [if_neg (by rw [hp]; exact fun hc => hc rfl : ¬(rowCells p).length ≠ headers.length)]
    rw [ih bad rest (idx + 1) (fun l hl => hpre l (List.mem_cons_of_mem p hl)) hbad]
    have : idx + 1 + pre'.length + 2 = idx + (p :: pre').length + 2 := by
      simp [List.length_cons]
      omega
    rw [this]

theorem escapeQuotesCh_eq_flatMap (cs : List Char) :
    escapeQuotesCh cs =
      cs.flatMap (fun c => if c = '"' then ['"', '"'] else [c]) := by
  induction cs with
  | nil => rfl
  | cons c rest ih =>
    by_cases h : c = '"' <;>
      simp [escapeQuotesCh, h, ih, List.flatMap_cons]

theorem dropWhile_eq_self_head {p : Char → Bool} {l : List Char}
    (h : l.dropWhile p = l) : ∀ c, l.head? = some c → p c = false := by
  intro c hc
  cases l with
  | nil => simp at hc
  | cons a t =>
    obtain rfl : a = c := by simpa using hc
    by_contra hp
    rw [Bool.not_eq_false] at hp
    rw [List.dropWhile_cons, if_pos hp] at h
    have hlen := (List.dropWhile_sublist (l := t) p).length_le
    rw [h] at hlen
    simp only [List.length_cons] at hlen
    omega

theorem dropWhile_eq_self_of_head {p : Char → Bool} {l : List Char}
    (h : ∀ c, l.head? = some c → p c = false) : l.dropWhile p = l := by
  cases l with
  | nil => rfl
  | cons a t => rw [List.dropWhile_cons, if_neg (by simp [h a rfl])]

theorem trimList_eq_self {l : List Char}
    (hh : ∀ c, l.head? = some c → isJsWS c = false)
    (hl : ∀ c, l.getLast? = some c → isJsWS c = false) :
    trimList l = l := by
  unfold trimList
  rw [dropWhile_eq_self_of_head hh]
  rw [dropWhile_eq_self_of_head
    (by intro c hc; rw [List.head?_reverse] at hc; exact hl c hc)]
  exact List.reverse_reverse l

theorem trim_drop {l : List Char} (h : trimList l = l) :
    l.dropWhile isJsWS = l := by
  apply (List.dropWhile_sublist (l := l) isJsWS).eq_of_length
  have e1 : (trimList l).length ≤ (l.dropWhile isJsWS).length := by
    unfold trimList
    rw [List.length_reverse]
    calc ((l.dropWhile isJsWS).reverse.dropWhile isJsWS).length
        ≤ (l.dropWhile isJsWS).reverse.length :=
          (List.dropWhile_sublist _).length_le
      _ = (l.dropWhile isJsWS).length := List.length_reverse _
  have e2 : (l.dropWhile isJsWS).length ≤ l.length :=
    (List.dropWhile_sublist (l := l) isJsWS).length_le
  rw [h] at e1
  omega

theorem head_not_ws_of_trim {l : List Char} (h : trimList l = l) :
    ∀ c, l.head? = some c → isJsWS c = false :=
  dropWhile_eq_self_head (trim_drop h)

theorem trim_dropWhile_rev {l : List Char} (h : trimList l = l) :
    l.reverse.dropWhile isJsWS = l.reverse := by
  have h1 := trim_drop h
  unfold trimList at h
  rw [h1] at h
  have h2 := congrArg List.reverse h
  rwa [List.reverse_reverse] at h2

theorem last_not_ws_of_trim {l : List Char} (h : trimList l = l) :
    ∀ c, l.getLast? = some c → isJsWS c = false := by
  intro c hc
  apply dropWhile_eq_self_head (trim_dropWhile_rev h)
  rw [List.head?_reverse]
  exact hc

theorem joinWith_head_eq (sep : List Char) (p : List Char)
    (ps : List (List Char)) (hp : p ≠ []) :
    (joinWith sep (p :: ps)).head? = p.head? := by
  cases p with
  | nil => exact absurd rfl hp
  | cons a t => cases ps <;> rfl

theorem joinWith_getLast_eq (sep : List Char) :
    ∀ (ps : List (List Char)) (q : List Char),
      ps.getLast? = some q → q ≠ [] →
      (joinWith sep ps).getLast? = q.getLast? := by
  intro ps
  induction ps with
  | nil => intro q hq _; simp at hq
  | cons p ps' ih =>
    intro q hq hqne
    cases ps' with
    | nil =>
      obtain rfl : p = q := by simpa using hq
      rfl
    | cons r rs =>
      have hq' : (r :: rs).getLast? = some q := by
        rwa [List.getLast?_cons_cons] at hq
      obtain ⟨c, hc⟩ : ∃ c, q.getLast? = some c := by
        cases hq2 : q.getLast? with
        | none => rw [List.getLast?_eq_none_iff] at hq2; exact absurd hq2 hqne
        | some c => exact ⟨c, rfl⟩
      show (p ++ sep ++ joinWith sep (r :: rs)).getLast? = q.getLast?
      rw [List.append_assoc, List.getLast?_append, List.getLast?_append,
        ih q hq' hqne, hc]
      rfl

theorem not_mem_joinWith {x : Char} {sep : List Char} :
    ∀ {ps : List (List Char)}, x ∉ sep → (∀ p ∈ ps, x ∉ p) →
      x ∉ joinWith sep ps := by
  intro ps
  induction ps with
  | nil => intro _ _ hx; simp [joinWith] at hx
  | cons p ps' ih =>
    intro hsep hps
    cases ps' with
    | nil => exact hps p (List.mem_cons_self p [])
    | cons r rs =>
      show x ∉ p ++ sep ++ joinWith sep (r :: rs)
      intro hx
      rw [List.mem_append, List.mem_append] at hx
      rcases hx with (hx | hx) | hx
      · exact hps p (List.mem_cons_self p (r :: rs)) hx
      · exact hsep hx
      · exact ih hsep (fun l hl => hps l (List.mem_cons_of_mem p hl)) hx

theorem splitLinesCh_cons (c : Char) (t : List Char) (h1 : c ≠ '\n')
    (h2 : ¬(c = '\r' ∧ t.head? = some '\n')) :
    splitLinesCh (c :: t) = consHead c (splitLinesCh t) := by
  rw [splitLinesCh.eq_def]
  split
  · simp_all
  · simp_all
  · simp_all
  · rename_i c2 rest hno1 hno2 heq
    injection heq with e1 e2
    subst e1
    subst e2
    rfl

theorem splitCommaCh_cons (c : Char) (t : List Char) (h : c ≠ ',') :
    splitCommaCh (c :: t) = consHead c (splitCommaCh t) := by
  rw [splitCommaCh, if_neg h]

theorem splitCommaCh_no_comma : ∀ {v : List Char}, ',' ∉ v →
    splitCommaCh v = [v] := by
  intro v
  induction v with
  | nil => intro _; rfl
  | cons c t ih =>
    intro h
    have hc : c ≠ ',' := fun e => h (by rw [e]; exact List.mem_cons_self ',' t)
    rw [splitCommaCh_cons c t hc, ih (fun hm => h (List.mem_cons_of_mem c hm))]
    rfl

theorem splitCommaCh_append : ∀ (v rest : List Char), ',' ∉ v →
    splitCommaCh (v ++ ',' :: rest) = v :: splitCommaCh rest := by
  intro v rest
  induction v with
  | nil => intro _; rw [List.nil_append, splitCommaCh, if_pos rfl]
  | cons c t ih =>
    intro h
    have hc : c ≠ ',' := fun e => h (by rw [e]; exact List.mem_cons_self ',' t)
    rw [List.cons_append, splitCommaCh_cons c _ hc,
      ih (fun hm => h (List.mem_cons_of_mem c hm))]
    rfl

theorem splitCommaCh_join : ∀ (ps : List (List Char)), ps ≠ [] →
    (∀ p ∈ ps, ',' ∉ p) → splitCommaCh (joinWith [','] ps) = ps := by
  intro ps
  induction ps with
  | nil => intro h _; exact absurd rfl h
  | cons p ps' ih =>
    intro _ hps
    cases ps' with
    | nil => exact splitCommaCh_no_comma (hps p (List.mem_cons_self p []))
    | cons r rs =>
      show splitCommaCh (p ++ [','] ++ joinWith [','] (r :: rs)) = _
      rw [List.append_assoc, List.singleton_append,
        splitCommaCh_append p _ (hps p (List.mem_cons_self p (r :: rs))),
        ih (by simp) (fun l hl => hps l (List.mem_cons_of_mem p hl))]

theorem splitLinesCh_no_newline : ∀ (l : List Char), '\n' ∉ l →
    splitLinesCh l = [l] := by
  intro l
  induction l with
  | nil => intro _; rfl
  | cons c t ih =>
    intro h
    have hc : c ≠ '\n' := fun e => h (by rw [e]; exact List.mem_cons_self '\n' t)
    have hc2 : ¬(c = '\r' ∧ t.head? = some '\n') := by
      rintro ⟨_, hhd⟩
      cases t with
      | nil => simp at hhd
      | cons a t' =>
        obtain rfl : a = '\n' := by simpa using hhd
        exact h (List.mem_cons_of_mem c (List.mem_cons_self '\n' t'))
    rw [splitLinesCh_cons c t hc hc2,
      ih (fun hm => h (List.mem_cons_of_mem c hm))]
    rfl

theorem splitLinesCh_append : ∀ (l rest : List Char), '\n' ∉ l →
    l.getLast? ≠ some '\r' →
    splitLinesCh (l ++ '\n' :: rest) = l :: splitLinesCh rest := by
  intro l rest
  induction l with
  | nil => intro _ _; rfl
  | cons c t ih =>
    intro h hr
    have hc : c ≠ '\n' := fun e => h (by rw [e]; exact List.mem_cons_self '\n' t)
    cases t with
    | nil =>
      have hcr : c ≠ '\r' := fun e => hr (by rw [e]; rfl)
      rw [List.cons_append, List.nil_append,
        splitLinesCh_cons c _ hc (by rintro ⟨e, _⟩; exact hcr e)]
      rfl
    | cons c2 t2 =>
      have hc2 : c2 ≠ '\n' := fun e =>
        h (by rw [e]; exact List.mem_cons_of_mem c (List.mem_cons_self '\n' t2))
      have hstep : ¬(c = '\r' ∧ ((c2 :: t2) ++ '\n' :: rest).head? = some '\n') := by
        rintro ⟨_, hhd⟩
        rw [List.cons_append] at hhd
        exact hc2 (by simpa using hhd)
      rw [List.cons_append, splitLinesCh_cons c _ hc hstep,
        ih (fun hm => h (List.mem_cons_of_mem c hm))
          (by rwa [List.getLast?_cons_cons] at hr)]
      rfl

theorem splitLinesCh_join : ∀ (ps : List (List Char)), ps ≠ [] →
    (∀ p ∈ ps, '\n' ∉ p ∧ p.getLast? ≠ some '\r') →
    splitLinesCh (joinWith ['\n'] ps) = ps := by
  intro ps
  induction ps with
  | nil => intro h _; exact absurd rfl h
  | cons p ps' ih =>
    intro _ hps
    cases ps' with
    | nil => exact splitLinesCh_no_newline p (hps p (List.mem_cons_self p [])).1
    | cons r rs =>
      show splitLinesCh (p ++ ['\n'] ++ joinWith ['\n'] (r :: rs)) = _
      rw [List.append_assoc, List.singleton_append,
        splitLinesCh_append p _ (hps p (List.mem_cons_self p (r :: rs))).1
          (hps p (List.mem_cons_self p (r :: rs))).2,
        ih (by simp) (fun l hl => hps l (List.mem_cons_of_mem p hl))]

theorem mem_of_getLast?_eq {α : Type} {l : List α} {a : α}
    (h : l.getLast? = some a) : a ∈ l := by
  induction l with
  | nil => simp at h
  | cons x t ih =>
    cases t with
    | nil =>
      obtain rfl : x = a := by simpa using h
      exact List.mem_cons_self x []
    | cons y t2 =>
      rw [List.getLast?_cons_cons] at h
      exact List.mem_cons_of_mem x (ih h)

theorem orEmpty_eq (v : List Char) : orEmpty v = v := by
  unfold orEmpty
  split
  · rename_i h; exact h.symm
  · rfl

theorem foldl_objInsert_fresh :
    ∀ (kvs : List (List Char × List Char)) (obj : List (String × String)),
      (kvs.map fun kv => String.mk kv.1).Nodup →
      (∀ kv ∈ kvs, String.mk kv.1 ∉ obj.map Prod.fst) →
      kvs.foldl (fun obj kv => objInsert obj ⟨kv.1⟩ ⟨orEmpty kv.2⟩) obj =
        obj ++ (kvs.map fun kv => (String.mk kv.1, String.mk (orEmpty kv.2))) := by
  intro kvs
  induction kvs with
  | nil => intro obj _ _; simp
  | cons kv rest ih =>
    intro obj hnd hfresh
    rw [List.foldl_cons]
    have hk : String.mk kv.1 ∉ obj.map Prod.fst :=
      hfresh kv (List.mem_cons_self kv rest)
    have hins : objInsert obj ⟨kv.1⟩ ⟨orEmpty kv.2⟩ =
        obj ++ [(String.mk kv.1, String.mk (orEmpty kv.2))] := by
      unfold objInsert
      rw [if_neg hk]
    rw [hins, ih (obj ++ [(String.mk kv.1, String.mk (orEmpty kv.2))])
      (List.nodup_cons.mp (by simpa using hnd)).2 ?_]
    · rw [List.append_assoc]
      rfl
    · intro kv' hkv'
      rw [List.map_append, List.mem_append]
      rintro (h | h)
      · exact hfresh kv' (List.mem_cons_of_mem kv hkv') h
      · have he : String.mk kv'.1 = String.mk kv.1 := by simpa using h
        have hmem : String.mk kv'.1 ∈ rest.map fun kv => String.mk kv.1 :=
          List.mem_map_of_mem _ hkv'
        rw [he] at hmem
        exact (List.nodup_cons.mp (by simpa using hnd)).1 hmem

theorem buildRecord_zip (headers values : List (List Char))
    (hnd : (headers.map String.mk).Nodup)
    (hlen : values.length = headers.length) :
    buildRecord headers values =
      (headers.zip values).map fun kv =>
        (String.mk kv.1, String.mk (orEmpty kv.2)) := by
  unfold buildRecord
  have hmk : ((headers.zip values).map fun kv => String.mk kv.1) =
      headers.map String.mk := by
    rw [show (fun kv : List Char × List Char => String.mk kv.1) =
        (String.mk ∘ Prod.fst) from rfl, ← List.map_map,
      List.map_fst_zip headers values (le_of_eq hlen.symm)]
  rw [foldl_objInsert_fresh (headers.zip values) [] (by rw [hmk]; exact hnd)
    (by simp)]
  rfl

theorem lookupFirst_keys :
    ∀ (r : List (String × JValue)), (r.map Prod.fst).Nodup →
      (r.map Prod.fst).map (fun k => lookupFirst r k) =
        r.map fun kv => some kv.2 := by
  intro r
  induction r with
  | nil => intro _; rfl
  | cons kv r' ih =>
    intro hnd
    rw [List.map_cons, List.map_cons, List.map_cons]
    congr 1
    · show lookupFirst (kv :: r') kv.1 = some kv.2
      rw [lookupFirst, if_pos rfl]
    · have hpt : ∀ k ∈ r'.map Prod.fst,
          lookupFirst (kv :: r') k = lookupFirst r' k := by
        intro k hk
        have hne : kv.1 ≠ k := fun e => (List.nodup_cons.mp hnd).1 (e ▸ hk)
        rw [lookupFirst, if_neg hne]
      rw [List.map_congr_left hpt]
      exact ih (List.nodup_cons.mp hnd).2

theorem map_lookupFirst {α : Type} (F : Option JValue → α)
    (r : List (String × JValue)) (hnd_r : (r.map Prod.fst).Nodup) :
    (r.map Prod.fst).map (fun k => F (lookupFirst r k)) =
      r.map fun kv => F (some kv.2) := by
  have h := congrArg (List.map F) (lookupFirst_keys r hnd_r)
  simpa [List.map_map, Function.comp] using h

theorem serializeValue_plain {v : JValue} (h1 : isNull v = false)
    (h2 : hasSpecialChar (jsString v) = false) :
    serializeValue (some v) = jsString v := by
  simp only [serializeValue, h1, Bool.false_eq_true, if_false, h2]

theorem hasSpecialChar_eq_false {v : JValue} (hv : plainValue v) :
    hasSpecialChar (jsString v) = false := by
  obtain ⟨_, ⟨_, _, hcm, hnl⟩, hq⟩ := hv
  simp [hasSpecialChar, hcm, hnl, hq]

theorem csvHeaders_uniform (ks : List String) (hks : dedupFO ks = ks) :
    ∀ (items : List JValue), items ≠ [] → (∀ it ∈ items, jsKeys it = ks) →
      csvHeaders items = ks := by
  intro items
  induction items with
  | nil => intro h _; exact absurd rfl h
  | cons it items' ih =>
    intro _ hall
    cases items' with
    | nil =>
      show dedupFO (jsKeys it ++ []) = ks
      rw [List.append_nil, hall it (List.mem_cons_self it []), hks]
    | cons it2 items'' =>
      show dedupFO (jsKeys it ++ (it2 :: items'').flatMap jsKeys) = ks
      rw [dedupFO_append, hall it (List.mem_cons_self it (it2 :: items'')), hks]
      have hrest : csvHeaders (it2 :: items'') = ks :=
        ih (by simp) (fun l hl => hall l (List.mem_cons_of_mem it hl))
      rw [show dedupFO ((it2 :: items'').flatMap jsKeys) =
          csvHeaders (it2 :: items'') from rfl, hrest]
      rw [List.filter_eq_nil_iff.mpr (fun a ha => by simp [ha]), List.append_nil]

theorem join_comma_plain (ps : List (List Char)) (hne : ps ≠ [])
    (hps : ∀ p ∈ ps, plainCell p) :
    '\n' ∉ joinWith [','] ps ∧
    (∃ c, (joinWith [','] ps).head? = some c ∧ isJsWS c = false) ∧
    (∃ c, (joinWith [','] ps).getLast? = some c ∧ isJsWS c = false) := by
  refine ⟨?_, ?_, ?_⟩
  · exact not_mem_joinWith (by decide) (fun p hp => (hps p hp).2.2.2)
  · obtain ⟨p, ps', rfl⟩ : ∃ p ps', ps = p :: ps' := by
      cases ps with
      | nil => exact absurd rfl hne
      | cons p ps' => exact ⟨p, ps', rfl⟩
    have hp := hps p (List.mem_cons_self p ps')
    obtain ⟨c, hc⟩ : ∃ c, p.head? = some c := by
      cases hh : p.head? with
      | none => rw [List.head?_eq_none_iff] at hh; exact absurd hh hp.1
      | some c => exact ⟨c, rfl⟩
    exact ⟨c, by rw [joinWith_head_eq [','] p ps' hp.1]; exact hc,
      head_not_ws_of_trim hp.2.1 c hc⟩
  · obtain ⟨q, hq⟩ : ∃ q, ps.getLast? = some q := by
      cases hh : ps.getLast? with
      | none => rw [List.getLast?_eq_none_iff] at hh; exact absurd hh hne
      | some q => exact ⟨q, rfl⟩
    have hqmem : q ∈ ps := mem_of_getLast?_eq hq
    have hpq := hps q hqmem
    obtain ⟨c, hc⟩ : ∃ c, q.getLast? = some c := by
      cases hh : q.getLast? with
      | none => rw [List.getLast?_eq_none_iff] at hh; exact absurd hh hpq.1
      | some c => exact ⟨c, rfl⟩
    exact ⟨c, by rw [joinWith_getLast_eq [','] ps q hq hpq.1]; exact hc,
      last_not_ws_of_trim hpq.2.1 c hc⟩

/-! ## Claims -/

/-- C5: for every input that, after trimming and splitting on `\n` or
`\r\n`, has fewer than 2 lines, `parseCSV` fails with the message
"CSV must contain at least a header row and one data row". -/
theorem parseCSV_too_few_lines (csv : String)
    (h : (csvLines csv).length < 2) :
    parseCSV csv =
      Except.error "CSV must contain at least a header row and one data row" := by
  unfold parseCSV
  cases hl : csvLines csv with
  | nil => rfl
  | cons a tail =>
    cases tail with
    | nil => rfl
    | cons b rest =>
      rw [hl] at h
      simp only [List.length_cons] at h
      omega

/-- C5 witness: a single-line input triggers the error. -/
theorem parseCSV_too_few_lines_witness :
    parseCSV "a,b,c" =
      Except.error "CSV must contain at least a header row and one data row" :=
  parseCSV_too_few_lines "a,b,c" (by decide)

/-- C9: blank (empty or all-whitespace) input makes `convertData` report
"Please enter some data to convert" and return at once: the resulting
state is the input state with only the error field replaced, independent
of the mode and of any parser outcome (neither parser nor serializer is
consulted). -/
theorem convertData_blank_input (st : ConverterState)
    (parsed : Except String JValue) (h : jsTrim st.input = "") :
    convertData st parsed =
      ⟨st.input, st.output,
        some ⟨"Please enter some data to convert", none⟩, st.mode⟩ := by
  unfold convertData
  rw [if_pos h]

/-- C9 witness: whitespace-only input in `json2csv` mode, with a stale
output in place, yields exactly the blank-input error state. -/
theorem convertData_blank_input_witness :
    convertData ⟨" \t ", "old", none, Mode.json2csv⟩ (Except.ok JValue.jnull) =
      ⟨" \t ", "old",
        some ⟨"Please enter some data to convert", none⟩, Mode.json2csv⟩ :=
  convertData_blank_input ⟨" \t ", "old", none, Mode.json2csv⟩
    (Except.ok JValue.jnull) (by decide)

/-- C2 counterexample: with blank input and a stale output left over from
an earlier conversion, `convertData` sets a non-null error but does not
clear the output, so the error and output states are not mutually
exclusive after this call. -/
theorem convertData_exclusivity_cex :
    (convertData ⟨"", "stale", none, Mode.csv2json⟩ (Except.error "syntax")).error ≠
        none ∧
      (convertData ⟨"", "stale", none, Mode.csv2json⟩ (Except.error "syntax")).output ≠
        "" := by
  constructor <;> decide

/-- C2 amended: for every call whose input is not blank, the error and
output states are mutually exclusive after `convertData`: a non-null
error comes with an empty output, and a non-empty output comes with a
null error.  (The blank-input branch sets the error without touching the
stale output.) -/
theorem convertData_exclusive (st : ConverterState)
    (parsed : Except String JValue) (h : jsTrim st.input ≠ "") :
    ((convertData st parsed).error ≠ none → (convertData st parsed).output = "") ∧
      ((convertData st parsed).output ≠ "" → (convertData st parsed).error = none) := by
  unfold convertData
  rw [if_neg h]
  cases st.mode with
  | csv2json => cases parseCSV st.input <;> simp
  | json2csv => cases parseJSON parsed <;> simp

/-- C2 amended witness: a non-blank unparsable input produces an error
with a cleared output. -/
theorem convertData_exclusive_witness :
    ((convertData ⟨"oops", "stale", none, Mode.csv2json⟩ (Except.error "e")).error ≠
        none →
      (convertData ⟨"oops", "stale", none, Mode.csv2json⟩ (Except.error "e")).output =
        "") ∧
    ((convertData ⟨"oops", "stale", none, Mode.csv2json⟩ (Except.error "e")).output ≠
        "" →
      (convertData ⟨"oops", "stale", none, Mode.csv2json⟩ (Except.error "e")).error =
        none) :=
  convertData_exclusive ⟨"oops", "stale", none, Mode.csv2json⟩
    (Except.error "e") (by decide)

/-- C6: on syntactically valid JSON input (`JSON.parse` yields a value),
`parseJSON` rejects a non-array top level with "Input must be an array of
objects", the empty array with "JSON array cannot be empty", and any
array containing a null or scalar element with "All items in the array
must be objects"; a non-empty array of non-null objects is accepted and
returned as parsed. -/
theorem parseJSON_validation (v : JValue) (xs : List JValue) :
    ((∀ ys, v ≠ JValue.jarr ys) →
        parseJSON (Except.ok v) = Except.error "Input must be an array of objects") ∧
      parseJSON (Except.ok (JValue.jarr [])) =
        Except.error "JSON array cannot be empty" ∧
      ((∃ x ∈ xs, x = JValue.jnull ∨ isScalar x = true) →
        parseJSON (Except.ok (JValue.jarr xs)) =
          Except.error "All items in the array must be objects") ∧
      (xs ≠ [] → (∀ x ∈ xs, ∃ fs, x = JValue.jobj fs) →
        parseJSON (Except.ok (JValue.jarr xs)) = Except.ok xs) := by
  refine ⟨?_, rfl, ?_, ?_⟩
  · intro hv
    cases v with
    | jarr ys => exact absurd rfl (hv ys)
    | jnull => rfl
    | jbool b => rfl
    | jnum n => rfl
    | jstr s => rfl
    | jobj fs => rfl
  · rintro ⟨x, hx, hbad⟩
    have hne : xs.length ≠ 0 := by
      intro h0
      rw [List.length_eq_zero] at h0
      subst h0
      exact absurd hx (List.not_mem_nil x)
    have hall : xs.all (fun item => typeofObject item && !isNull item) = false := by
      rw [List.all_eq_false]
      refine ⟨x, hx, ?_⟩
      rcases hbad with h | h
      · subst h; decide
      · cases x <;> simp_all [isScalar, typeofObject]
    simp [parseJSON, parseJSONVal, hne, hall]
  · intro hne hobj
    have hne' : xs.length ≠ 0 := by
      intro h0
      exact hne (List.length_eq_zero.mp h0)
    have hall : xs.all (fun item => typeofObject item && !isNull item) = true := by
      rw [List.all_eq_true]
      intro x hx
      obtain ⟨fs, rfl⟩ := hobj x hx
      rfl
    simp [parseJSON, parseJSONVal, hne', hall]

/-- C6 witness: a scalar element makes validation fail. -/
theorem parseJSON_validation_witness :
    parseJSON (Except.ok (JValue.jarr [JValue.jnum 3])) =
      Except.error "All items in the array must be objects" :=
  (parseJSON_validation (JValue.jstr "t") [JValue.jnum 3]).2.2.1
    ⟨JValue.jnum 3, List.mem_singleton_self _, Or.inr rfl⟩

/-- C10: a non-empty JSON array whose elements are all themselves arrays
passes `parseJSON` unchanged, because `typeof` of an array is `'object'`
and the element check only requires a non-null value of object type. -/
theorem parseJSON_accepts_array_elements (xs : List JValue)
    (h1 : xs ≠ []) (h2 : ∀ x ∈ xs, ∃ ys, x = JValue.jarr ys) :
    parseJSON (Except.ok (JValue.jarr xs)) = Except.ok xs := by
  have hne : xs.length ≠ 0 := fun h0 => h1 (List.length_eq_zero.mp h0)
  have hall : xs.all (fun item => typeofObject item && !isNull item) = true := by
    rw [List.all_eq_true]
    intro x hx
    obtain ⟨ys, rfl⟩ := h2 x hx
    rfl
  simp [parseJSON, parseJSONVal, hne, hall]

/-- C10 witness: `[[1,2]]` is accepted and returned unchanged. -/
theorem parseJSON_accepts_array_elements_witness :
    parseJSON (Except.ok (JValue.jarr [JValue.jarr [JValue.jnum 1, JValue.jnum 2]])) =
      Except.ok [JValue.jarr [JValue.jnum 1, JValue.jnum 2]] :=
  parseJSON_accepts_array_elements [JValue.jarr [JValue.jnum 1, JValue.jnum 2]]
    (by simp)
    (fun x hx => ⟨[JValue.jnum 1, JValue.jnum 2], List.mem_singleton.mp hx⟩)

/-- C1 amended: the round trip holds for every non-empty record set of
objects sharing one non-empty duplicate-free key list, in which every
key and every stringified value is non-empty, invariant under whitespace
trimming and free of commas and newlines, and every value is non-null
with a stringification free of double quotes: parsing the serialized CSV
returns exactly the records with every value stringified, keys in the
same order. -/
theorem csv_round_trip (rs : List (List (String × JValue))) (ks : List String)
    (h0 : rs ≠ []) (hks0 : ks ≠ []) (hnd : ks.Nodup)
    (hkeys : ∀ r ∈ rs, r.map Prod.fst = ks)
    (hkcell : ∀ k ∈ ks, plainCell k.data)
    (hvals : ∀ r ∈ rs, ∀ kv ∈ r, plainValue kv.2) :
    parseCSV (serializeCSV (rs.map JValue.jobj)) =
      Except.ok (rs.map fun r => r.map fun kv => (kv.1, jsString kv.2)) := by
  obtain ⟨r0, rs', rfl⟩ : ∃ r0 rs', rs = r0 :: rs' := by
    cases rs with
    | nil => exact absurd rfl h0
    | cons r0 rs' => exact ⟨r0, rs', rfl⟩
  have hkeys_js : ∀ it ∈ (r0 :: rs').map JValue.jobj, jsKeys it = ks := by
    intro it hit
    obtain ⟨r, hr, rfl⟩ := List.mem_map.mp hit
    show dedupFO (r.map Prod.fst) = ks
    rw [hkeys r hr, dedupFO_eq_self ks hnd]
  have hheaders : csvHeaders ((r0 :: rs').map JValue.jobj) = ks :=
    csvHeaders_uniform ks (dedupFO_eq_self ks hnd) _ (by simp) hkeys_js
  have hrn : ∀ r ∈ r0 :: rs', r ≠ [] := by
    intro r hr he
    apply hks0
    rw [← hkeys r hr, he]
    rfl
  have hrow : ∀ r ∈ r0 :: rs', csvRowCh ks (JValue.jobj r) = rowJoin r := by
    intro r hr
    have hnd_r : (r.map Prod.fst).Nodup := by rw [hkeys r hr]; exact hnd
    show joinWith [','] (ks.map fun h => (csvField (JValue.jobj r) h).data) = _
    unfold rowJoin
    congr 1
    have step1 : (ks.map fun h => (csvField (JValue.jobj r) h).data) =
        (r.map Prod.fst).map
          (fun k => (serializeValue (lookupFirst r k)).data) := by
      rw [hkeys r hr]
      rfl
    rw [step1,
      map_lookupFirst (fun o => (serializeValue o).data) r hnd_r]
    apply List.map_congr_left
    intro kv hkv
    show (serializeValue (some kv.2)).data = (jsString kv.2).data
    rw [serializeValue_plain (hvals r hr kv hkv).1
      (hasSpecialChar_eq_false (hvals r hr kv hkv))]
  have hser : serializeCSV ((r0 :: rs').map JValue.jobj) =
      ⟨joinWith ['\n'] (headerJoin ks :: (r0 :: rs').map rowJoin)⟩ := by
    unfold serializeCSV
    rw [hheaders]
    have hlist : ((r0 :: rs').map JValue.jobj).map (csvRowCh ks) =
        (r0 :: rs').map rowJoin := by
      rw [List.map_map]
      exact List.map_congr_left (fun r hr => hrow r hr)
    rw [hlist]
    rfl
  have hkcells : ∀ p ∈ ks.map String.data, plainCell p := by
    intro p hp
    obtain ⟨k, hk, rfl⟩ := List.mem_map.mp hp
    exact hkcell k hk
  have hkne : ks.map String.data ≠ [] := fun he => hks0 (by simpa using he)
  have hvcells : ∀ r ∈ r0 :: rs',
      ∀ p ∈ r.map (fun kv => (jsString kv.2).data), plainCell p := by
    intro r hr p hp
    obtain ⟨kv, hkv, rfl⟩ := List.mem_map.mp hp
    exact (hvals r hr kv hkv).2.1
  have hvne : ∀ r ∈ r0 :: rs',
      r.map (fun kv => (jsString kv.2).data) ≠ [] := by
    intro r hr he
    exact hrn r hr (by simpa using he)
  have hlinesOK : ∀ p ∈ headerJoin ks :: (r0 :: rs').map rowJoin,
      '\n' ∉ p ∧ p.getLast? ≠ some '\r' := by
    intro p hp
    have hbase : '\n' ∉ p ∧ ∃ c, p.getLast? = some c ∧ isJsWS c = false := by
      rcases List.mem_cons.mp hp with rfl | hmem
      · exact ⟨(join_comma_plain _ hkne hkcells).1,
          (join_comma_plain _ hkne hkcells).2.2⟩
      · obtain ⟨r, hr, rfl⟩ := List.mem_map.mp hmem
        exact ⟨(join_comma_plain _ (hvne r hr) (hvcells r hr)).1,
          (join_comma_plain _ (hvne r hr) (hvcells r hr)).2.2⟩
    obtain ⟨hnl, c, hc, hcw⟩ := hbase
    refine ⟨hnl, fun he => ?_⟩
    rw [he] at hc
    injection hc with e
    rw [← e] at hcw
    exact absurd hcw (by decide)
  have hjoined_head : ∃ c,
      (joinWith ['\n'] (headerJoin ks :: (r0 :: rs').map rowJoin)).head? =
        some c ∧ isJsWS c = false := by
    obtain ⟨c, hc, hw⟩ := (join_comma_plain (ks.map String.data) hkne hkcells).2.1
    have hc' : (headerJoin ks).head? = some c := hc
    refine ⟨c, ?_, hw⟩
    rw [joinWith_head_eq ['\n'] _ _ (fun he => by rw [he] at hc'; cases hc')]
    exact hc'
  have hjoined_last : ∃ c,
      (joinWith ['\n'] (headerJoin ks :: (r0 :: rs').map rowJoin)).getLast? =
        some c ∧ isJsWS c = false := by
    have hmap : (r0 :: rs').map rowJoin ≠ [] := by simp
    obtain ⟨q, hq⟩ : ∃ q, ((r0 :: rs').map rowJoin).getLast? = some q := by
      cases hh : ((r0 :: rs').map rowJoin).getLast? with
      | none => rw [List.getLast?_eq_none_iff] at hh; exact absurd hh hmap
      | some q => exact ⟨q, rfl⟩
    obtain ⟨r, hr, rfl⟩ := List.mem_map.mp (mem_of_getLast?_eq hq)
    obtain ⟨c, hc, hw⟩ := (join_comma_plain _ (hvne r hr) (hvcells r hr)).2.2
    have hc' : (rowJoin r).getLast? = some c := hc
    refine ⟨c, ?_, hw⟩
    have hlines_last :
        (headerJoin ks :: (r0 :: rs').map rowJoin).getLast? =
          some (rowJoin r) := by
      rw [List.map_cons, List.getLast?_cons_cons, ← List.map_cons]
      exact hq
    rw [joinWith_getLast_eq ['\n'] _ (rowJoin r) hlines_last
      (fun he => by rw [he] at hc'; cases hc')]
    exact hc'
  have htrim :
      trimList (joinWith ['\n'] (headerJoin ks :: (r0 :: rs').map rowJoin)) =
        joinWith ['\n'] (headerJoin ks :: (r0 :: rs').map rowJoin) := by
    obtain ⟨c1, hc1, hw1⟩ := hjoined_head
    obtain ⟨c2, hc2, hw2⟩ := hjoined_last
    apply trimList_eq_self
    · intro c hc
      rw [hc1] at hc
      injection hc with e
      rw [← e]
      exact hw1
    · intro c hc
      rw [hc2] at hc
      injection hc with e
      rw [← e]
      exact hw2
  have hcl : csvLines (serializeCSV ((r0 :: rs').map JValue.jobj)) =
      headerJoin ks :: rowJoin r0 :: rs'.map rowJoin := by
    rw [hser]
    show splitLinesCh (trimList
      (joinWith ['\n'] (headerJoin ks :: (r0 :: rs').map rowJoin))) = _
    rw [htrim, splitLinesCh_join _ (by simp) hlinesOK, List.map_cons]
  have hce : rowCells (headerJoin ks) = ks.map String.data := by
    show (splitCommaCh (joinWith [','] (ks.map String.data))).map trimList = _
    rw [splitCommaCh_join _ hkne (fun p hp => (hkcells p hp).2.2.1)]
    calc (ks.map String.data).map trimList
        = (ks.map String.data).map id :=
          List.map_congr_left (fun p hp => (hkcells p hp).2.1)
      _ = ks.map String.data := List.map_id _
  have hhe : (rowCells (headerJoin ks)).any (fun h => h.isEmpty) = false := by
    rw [hce, List.any_eq_false]
    intro x hx
    obtain ⟨k, hk, rfl⟩ := List.mem_map.mp hx
    intro he
    exact (hkcell k hk).1 (by simpa using he)
  have hrc : ∀ r ∈ r0 :: rs',
      rowCells (rowJoin r) = r.map (fun kv => (jsString kv.2).data) := by
    intro r hr
    show (splitCommaCh (joinWith [',']
      (r.map fun kv => (jsString kv.2).data))).map trimList = _
    rw [splitCommaCh_join _ (hvne r hr) (fun p hp => (hvcells r hr p hp).2.2.1)]
    calc (r.map fun kv => (jsString kv.2).data).map trimList
        = (r.map fun kv => (jsString kv.2).data).map id :=
          List.map_congr_left (fun p hp => (hvcells r hr p hp).2.1)
      _ = r.map fun kv => (jsString kv.2).data := List.map_id _
  have hlen_r : ∀ r ∈ r0 :: rs', r.length = ks.length := by
    intro r hr
    have h := congrArg List.length (hkeys r hr)
    simpa using h
  have hwid : ∀ line ∈ rowJoin r0 :: rs'.map rowJoin,
      (rowCells line).length = (rowCells (headerJoin ks)).length := by
    intro line hl
    obtain ⟨r, hr, rfl⟩ : ∃ r, r ∈ r0 :: rs' ∧ line = rowJoin r := by
      rcases List.mem_cons.mp hl with rfl | hmem
      · exact ⟨r0, List.mem_cons_self r0 rs', rfl⟩
      · obtain ⟨r, hr, rfl⟩ := List.mem_map.mp hmem
        exact ⟨r, List.mem_cons_of_mem r0 hr, rfl⟩
    rw [hrc r hr, hce]
    simp only [List.length_map]
    exact hlen_r r hr
  have hnd2 : ((ks.map String.data).map String.mk).Nodup := by
    rw [List.map_map]
    have he : ks.map (String.mk ∘ String.data) = ks := by
      calc ks.map (String.mk ∘ String.data)
          = ks.map id := List.map_congr_left (fun k _ => rfl)
        _ = ks := List.map_id _
    rw [he]
    exact hnd
  have hred : parseCSV (serializeCSV ((r0 :: rs').map JValue.jobj)) =
      if (rowCells (headerJoin ks)).any (fun h => h.isEmpty) = true then
        Except.error "CSV headers cannot be empty"
      else parseRows (rowCells (headerJoin ks)) 0
        (rowJoin r0 :: rs'.map rowJoin) := by
    unfold parseCSV
    rw [hcl]
  rw [hred, hhe, if_neg (by simp)]
  rw [parseRows_ok (rowCells (headerJoin ks)) _ 0 hwid]
  congr 1
  show (rowJoin r0 :: rs'.map rowJoin).map
      (fun line => buildRecord (rowCells (headerJoin ks)) (rowCells line)) = _
  rw [← List.map_cons rowJoin r0 rs', List.map_map]
  apply List.map_congr_left
  intro r hr
  show buildRecord (rowCells (headerJoin ks)) (rowCells (rowJoin r)) =
    r.map fun kv => (kv.1, jsString kv.2)
  rw [hce, hrc r hr]
  rw [buildRecord_zip (ks.map String.data) _ hnd2
    (by simp only [List.length_map]; exact hlen_r r hr)]
  rw [← hkeys r hr, List.map_map, List.zip_map', List.map_map]
  apply List.map_congr_left
  intro kv hkv
  show (String.mk kv.1.data, String.mk (orEmpty (jsString kv.2).data)) =
    (kv.1, jsString kv.2)
  rw [orEmpty_eq]

/-- C1 counterexample: in the record set `[{a: " x "}]` no value's
stringification contains a comma, double quote or newline, yet the round
trip returns the record with the value trimmed to `"x"`, not `" x "`. -/
theorem csv_round_trip_cex :
    ',' ∉ (jsString (JValue.jstr " x ")).data ∧
    '"' ∉ (jsString (JValue.jstr " x ")).data ∧
    '\n' ∉ (jsString (JValue.jstr " x ")).data ∧
    parseCSV (serializeCSV ([[("a", JValue.jstr " x ")]].map JValue.jobj)) =
      Except.ok [[("a", "x")]] ∧
    ([[("a", "x")]] : List (List (String × String))) ≠
      [[("a", jsString (JValue.jstr " x "))]] := by
  have hjs : jsString (JValue.jstr " x ") = " x " := by simp [jsString]
  have hser : serializeCSV ([[("a", JValue.jstr " x ")]].map JValue.jobj) =
      "a\n x " := by
    simp [serializeCSV, csvHeaders, csvRowCh, csvField, serializeValue, jsGet,
      jsKeys, dedupFO, dedupFOAux, joinWith, jsString, hasSpecialChar, isNull,
      lookupFirst]
  refine ⟨?_, ?_, ?_, ?_, ?_⟩
  · rw [hjs]; decide
  · rw [hjs]; decide
  · rw [hjs]; decide
  · rw [hser]; rfl
  · rw [hjs]; decide

/-- C1 amended witness: a one-record, two-field record set of plain
string values round-trips exactly. -/
theorem csv_round_trip_witness :
    parseCSV (serializeCSV
      ([[("a", JValue.jstr "1"), ("b", JValue.jstr "2")]].map JValue.jobj)) =
      Except.ok ([[("a", JValue.jstr "1"), ("b", JValue.jstr "2")]].map
        fun r => r.map fun kv => (kv.1, jsString kv.2)) :=
  csv_round_trip [[("a", JValue.jstr "1"), ("b", JValue.jstr "2")]] ["a", "b"]
    (List.cons_ne_nil _ _) (by decide) (by decide) (by decide)
    (by
      intro k hk
      fin_cases hk <;>
        exact ⟨by decide, by decide, by decide, by decide⟩)
    (by
      intro r hr kv hkv
      fin_cases hr
      fin_cases hkv <;>
        exact ⟨rfl,
          ⟨by simp only [jsString]; decide, by simp only [jsString]; decide,
            by simp only [jsString]; decide, by simp only [jsString]; decide⟩,
          by simp only [jsString]; decide⟩)

/-- C3: for every valid CSV input (at least one data row, no header cell
empty after trimming, every data row splitting into exactly as many cells
as the header), `parseCSV` succeeds with exactly one record per data row,
and each record's keys are exactly the header fields in header order
(first-occurrence order of the header cells; when the header fields are
distinct, literally the header list). -/
theorem parseCSV_valid_shape (csv : String) (headerLine : List Char)
    (dataLines : List (List Char))
    (h1 : csvLines csv = headerLine :: dataLines)
    (h2 : dataLines ≠ [])
    (h3 : (rowCells headerLine).any (fun h => h.isEmpty) = false)
    (h4 : ∀ line ∈ dataLines,
      (rowCells line).length = (rowCells headerLine).length) :
    ∃ recs, parseCSV csv = Except.ok recs ∧
      recs.length = dataLines.length ∧
      (∀ r ∈ recs,
        r.map Prod.fst = dedupFO ((rowCells headerLine).map String.mk)) ∧
      (((rowCells headerLine).map String.mk).Nodup →
        ∀ r ∈ recs, r.map Prod.fst = (rowCells headerLine).map String.mk) := by
  obtain ⟨d, ds, rfl⟩ : ∃ d ds, dataLines = d :: ds := by
    cases dataLines with
    | nil => exact absurd rfl h2
    | cons d ds => exact ⟨d, ds, rfl⟩
  have hkeys : ∀ r ∈ (d :: ds).map
      (fun line => buildRecord (rowCells headerLine) (rowCells line)),
      r.map Prod.fst = dedupFO ((rowCells headerLine).map String.mk) := by
    intro r hr
    obtain ⟨line, hline, rfl⟩ := List.mem_map.mp hr
    exact buildRecord_keys _ _ (h4 line hline)
  refine ⟨(d :: ds).map
      (fun line => buildRecord (rowCells headerLine) (rowCells line)),
    ?_, by simp, hkeys, ?_⟩
  · have hred : parseCSV csv =
        if (rowCells headerLine).any (fun h => h.isEmpty) = true then
          Except.error "CSV headers cannot be empty"
        else parseRows (rowCells headerLine) 0 (d :: ds) := by
      unfold parseCSV
      rw [h1]
    rw [hred, h3]
    rw [if_neg (by simp)]
    exact parseRows_ok (rowCells headerLine) (d :: ds) 0 h4
  · intro hnd r hr
    rw [hkeys r hr, dedupFO_eq_self _ hnd]

/-- C3 witness: a two-column, two-row CSV. -/
theorem parseCSV_valid_shape_witness :
    ∃ recs, parseCSV "a,b\n1,2\n3,4" = Except.ok recs ∧
      recs.length = ["1,2".data, "3,4".data].length ∧
      (∀ r ∈ recs,
        r.map Prod.fst = dedupFO ((rowCells "a,b".data).map String.mk)) ∧
      (((rowCells "a,b".data).map String.mk).Nodup →
        ∀ r ∈ recs, r.map Prod.fst = (rowCells "a,b".data).map String.mk) :=
  parseCSV_valid_shape "a,b\n1,2\n3,4" "a,b".data ["1,2".data, "3,4".data]
    (by decide) (by decide) (by decide) (by decide)

/-- C4 counterexample: in `",a\nx"` the (single-cell) data row disagrees
with the two-header width, yet `parseCSV` fails with the empty-header
error, which reports neither a line number nor the field counts. -/
theorem parseCSV_row_mismatch_cex :
    parseCSV ",a\nx" = Except.error "CSV headers cannot be empty" ∧
      "CSV headers cannot be empty" ≠ rowCountError 2 1 2 :=
  ⟨rfl, by decide⟩

/-- C4 amended: for every CSV input that passes the header checks (at
least two lines, no empty header cell), if the data rows before position
`k` all have the header's width and row `k` does not, `parseCSV` fails
with the error naming source line `k + 2` (the first offending row's
1-based line number, the header being line 1) together with the actual
and expected field counts. -/
theorem parseCSV_row_mismatch (csv : String) (headerLine bad : List Char)
    (pre rest : List (List Char))
    (h1 : csvLines csv = headerLine :: (pre ++ bad :: rest))
    (h2 : (rowCells headerLine).any (fun h => h.isEmpty) = false)
    (h3 : ∀ line ∈ pre,
      (rowCells line).length = (rowCells headerLine).length)
    (h4 : (rowCells bad).length ≠ (rowCells headerLine).length) :
    parseCSV csv =
      Except.error (rowCountError (pre.length + 2) (rowCells bad).length
        (rowCells headerLine).length) := by
  obtain ⟨d, ds, hds⟩ : ∃ d ds, pre ++ bad :: rest = d :: ds := by
    cases pre with
    | nil => exact ⟨bad, rest, rfl⟩
    | cons p ps => exact ⟨p, ps ++ bad :: rest, rfl⟩
  have hred : parseCSV csv =
      if (rowCells headerLine).any (fun h => h.isEmpty) = true then
        Except.error "CSV headers cannot be empty"
      else parseRows (rowCells headerLine) 0 (d :: ds) := by
    unfold parseCSV
    rw [h1, hds]
  rw [hred, h2]
  rw [if_neg (by simp)]
  rw [← hds, parseRows_first_bad (rowCells headerLine) pre bad rest 0 h3 h4]
  have h0 : 0 + pre.length + 2 = pre.length + 2 := by omega
  rw [h0]

/-- C4 amended witness: one header field, a first data row of width two. -/
theorem parseCSV_row_mismatch_witness :
    parseCSV "a\nb,c" =
      Except.error (rowCountError ((([] : List (List Char))).length + 2)
        (rowCells "b,c".data).length (rowCells "a".data).length) :=
  parseCSV_row_mismatch "a\nb,c" "a".data "b,c".data [] []
    (by decide) (by decide) (by simp) (by decide)

/-- C8: the serializer's header row is the union of all records' keys in
first-occurrence order: record 0's keys come first in their own order,
followed by exactly those later-record keys not already present; the
header list contains a key iff some record has it; and a missing
(`undefined`) or null value renders as the empty string.  In particular
serializing `[{a:1,b:2},{a:3,c:4}]` produces header `a,b,c` with an empty
`b` field in row 2. -/
theorem serializeCSV_union_headers (fs : List (String × JValue)) (rs : List JValue) :
    csvHeaders (JValue.jobj fs :: rs) =
      jsKeys (JValue.jobj fs) ++
        (csvHeaders rs).filter (fun k => decide (k ∉ jsKeys (JValue.jobj fs))) ∧
    (∀ k : String, k ∈ csvHeaders rs ↔ ∃ r ∈ rs, k ∈ jsKeys r) ∧
    serializeValue none = "" ∧
    serializeValue (some JValue.jnull) = "" ∧
    serializeCSV [JValue.jobj [("a", JValue.jnum 1), ("b", JValue.jnum 2)],
        JValue.jobj [("a", JValue.jnum 3), ("c", JValue.jnum 4)]] =
      "a,b,c\n1,2,\n3,,4" := by
  refine ⟨?_, ?_, rfl, rfl, ?_⟩
  · show dedupFO ((JValue.jobj fs :: rs).flatMap jsKeys) = _
    rw [List.flatMap_cons, dedupFO_append]
    simp only [jsKeys, csvHeaders]
    simp only [dedupFO_idem]
  · intro k
    simp [csvHeaders, mem_dedupFO, List.mem_flatMap]
  · simp [serializeCSV, csvHeaders, csvRowCh, csvField, serializeValue, jsGet,
      jsKeys, dedupFO, dedupFOAux, joinWith, jsString, hasSpecialChar, isNull,
      lookupFirst]
    rfl

/-- C7: for every non-null record value the serializer first stringifies
the value and only then applies the spec's escaping rule to the
stringified form: quote-wrap with internal double quotes doubled when the
string contains a comma, double quote or newline, and emit it unchanged
otherwise. -/
theorem serializeValue_refines_spec (v : JValue) (h : isNull v = false) :
    serializeValue (some v) = csvEscapeSpec (jsString v) := by
  simp only [serializeValue, csvEscapeSpec, hasSpecialChar, h,
    Bool.false_eq_true, if_false, escapeQuotesCh_eq_flatMap]

/-- C7 witness: a value containing a double quote. -/
theorem serializeValue_refines_spec_witness :
    serializeValue (some (JValue.jstr "say \"hi\"")) =
      csvEscapeSpec (jsString (JValue.jstr "say \"hi\"")) :=
  serializeValue_refines_spec (JValue.jstr "say \"hi\"") rfl

end Converter
